import Mathlib

/-!
Shallow embedding of `src/index.tsx` (browser flashcard maker).

JS strings are modelled as `List Char`, JS arrays as `List`, the JS `Set`
of selected indices as `Finset ℕ`, and the module-level mutable variables
(`currentFlashcards`, `previousState`, `isMultiSelectMode`, `selectedCards`)
as an explicit `AppState` record threaded through the event handlers.
Persistence (`localStorage.setItem`) is modelled as a write log on the
state; the DOM-only effects of a handler (class toggles, counters, ARIA
labels, transient messages) are not part of the state.
-/

namespace Flashcards

/-- JS whitespace test, restricted to the characters relevant here
(space, tab, CR, LF). -/
def isWsChar (c : Char) : Bool := c = ' ' || c = '\t' || c = '\r' || c = '\n'

/-- Model of `String.prototype.trim`: drop whitespace from both ends. -/
def jsTrim (l : List Char) : List Char :=
  ((l.dropWhile isWsChar).reverse.dropWhile isWsChar).reverse

/-- Model of `String.prototype.toLowerCase`, character-wise (adequate for ASCII). -/
def toLowerStr (l : List Char) : List Char := l.map Char.toLower

/-- Model of `String.prototype.split(sep)` for a single-character separator:
`"".split(c) = [""]`, separators delimit (possibly empty) fields. -/
def jsSplit (sep : Char) : List Char → List (List Char)
  | [] => [[]]
  | c :: rest =>
    if c = sep then [] :: jsSplit sep rest
    else
      match jsSplit sep rest with
      | [] => [[c]]
      | p :: ps => (c :: p) :: ps

/-- Splitting on every character satisfying a predicate (used only to
formalise the spec-side notion of whitespace tokenisation). -/
def jsSplitP (p : Char → Bool) : List Char → List (List Char)
  | [] => [[]]
  | c :: rest =>
    if p c then [] :: jsSplitP p rest
    else
      match jsSplitP p rest with
      | [] => [[c]]
      | q :: qs => (c :: q) :: qs

/-- Model of `Array.prototype.join(sep)` for a single-character separator. -/
def jsJoin (sep : Char) : List (List Char) → List Char
  | [] => []
  | [p] => p
  | p :: q :: qs => p ++ sep :: jsJoin sep (q :: qs)

/-- Boolean list-prefix test (first argument is the candidate prefix). -/
def isPrefixList : List Char → List Char → Bool
  | [], _ => true
  | _ :: _, [] => false
  | a :: as, b :: bs => a = b && isPrefixList as bs

/-- Model of `String.prototype.includes`: substring test. -/
def containsSub : List Char → List Char → Bool
  | [], pat => pat.isEmpty
  | c :: rest, pat => isPrefixList pat (c :: rest) || containsSub rest pat

/-- The `Flashcard` interface of the source. -/
structure Flashcard where
  term : List Char
  definition : List Char
deriving DecidableEq

/-- One line of the generated response, as handled inside the
`generateButton` click listener: `line.split(':')`, the line yields a card
iff there are at least two parts, `parts[0].trim()` is non-empty and the
remaining parts rejoined with `':'` trim to a non-empty definition. -/
def parseLine (line : List Char) : Option Flashcard :=
  match jsSplit ':' line with
  | [] => none
  | p0 :: rest =>
    if rest = [] then none
    else if jsTrim p0 = [] then none
    else
      let d := jsTrim (jsJoin ':' rest)
      if d = [] then none
      else some ⟨jsTrim p0, d⟩

/-- The response parser of the `generateButton` click listener:
`responseText.split('\n').map(...).filter(card => card !== null)`. -/
def parseFlashcards (text : List Char) : List Flashcard :=
  (jsSplit '\n' text).filterMap parseLine

/-- The serialisation named by the spec's round-trip property:
one `"term: definition"` line per card. -/
def serializeCard (c : Flashcard) : List Char := c.term ++ ':' :: ' ' :: c.definition

/-- Lines joined with newlines, as in the spec's round-trip property. -/
def serializeCards (l : List Flashcard) : List Char :=
  jsJoin '\n' (l.map serializeCard)

/-- Validity of a card for the (amended) round-trip property: term and
definition non-empty, trimmed and newline-free, the term free of colons
(the amendment), and the definition not ending in a trailing colon. -/
def validCard (c : Flashcard) : Prop :=
  c.term ≠ [] ∧ jsTrim c.term = c.term ∧ ':' ∉ c.term ∧ '\n' ∉ c.term ∧
  c.definition ≠ [] ∧ jsTrim c.definition = c.definition ∧ '\n' ∉ c.definition ∧
  c.definition.getLast? ≠ some ':'

instance (c : Flashcard) : Decidable (validCard c) := by
  unfold validCard
  infer_instance

/-- Spec-side split on the FIRST colon of a line: `none` when the line has
no colon, otherwise the text before the first colon and the text after it. -/
def splitFirstColon (l : List Char) : Option (List Char × List Char) :=
  if ':' ∈ l then
    some (l.takeWhile (fun c => decide (c ≠ ':')),
          (l.dropWhile (fun c => decide (c ≠ ':'))).tail)
  else none

/-- Spec-side description of one parsed line (claim C5): split on the first
colon; a card is produced iff head and rejoined remainder trim non-empty. -/
def specParseLine (line : List Char) : Option Flashcard :=
  match splitFirstColon line with
  | none => none
  | some (hd, r) =>
    if jsTrim hd ≠ [] ∧ jsTrim r ≠ [] then some ⟨jsTrim hd, jsTrim r⟩ else none

/-- The text a card is matched against in `applySearchFilter`:
`` `${card.term} ${card.definition}`.toLowerCase() ``. -/
def cardText (c : Flashcard) : List Char := toLowerStr (c.term ++ ' ' :: c.definition)

/-- The tokenisation of `applySearchFilter`: `searchBar.value.trim().toLowerCase()
.split(' ').filter(word => word.length > 0)`. -/
def searchWords (q : List Char) : List (List Char) :=
  (jsSplit ' ' (toLowerStr (jsTrim q))).filter (fun w => decide (w ≠ []))

/-- Per-card visibility computed by `applySearchFilter`. -/
def isCardVisible (q : List Char) (c : Flashcard) : Bool :=
  let ws := searchWords q
  if ws = [] then true else ws.all (fun w => containsSub (cardText c) w)

/-- The visibility vector over a card list (one Boolean per card). -/
def visibilityVector (q : List Char) (cards : List Flashcard) : List Bool :=
  cards.map (isCardVisible q)

/-- Spec-side whitespace tokenisation named by claim C3: split the
normalised query on every whitespace character, keep non-empty tokens. -/
def wsTokens (l : List Char) : List (List Char) :=
  (jsSplitP isWsChar l).filter (fun w => decide (w ≠ []))

/-- Claim C3's visibility, formalised from the claim's words: every
whitespace-separated token of the normalised query is a substring of the
concatenation of the card's term and definition (case-insensitive). -/
def claimVisible (q : List Char) (c : Flashcard) : Bool :=
  (wsTokens (toLowerStr (jsTrim q))).all
    (fun w => containsSub (toLowerStr (c.term ++ c.definition)) w)

/-! ### Stored-data model (startup load)

`loadFlashcards` in the source reads the storage entry and returns
`JSON.parse(saved)` inside a `try`; the `catch` logs, removes the entry
and falls through to `return null`.  `JSON.parse` is modelled by a small
recursive-descent parser over a `Json` value type (integers without
fraction/exponent, strings without escape sequences — the subset exercised
here; an input outside the subset simply fails to parse, as a thrown
`SyntaxError` does). -/

/-- JSON values, as produced by `JSON.parse`. -/
inductive Json where
  | null
  | bool (b : Bool)
  | num (n : Int)
  | str (s : List Char)
  | arr (elems : List Json)
  | obj (fields : List (List Char × Json))

/-- Skip leading JSON whitespace. -/
def skipWs (l : List Char) : List Char := l.dropWhile isWsChar

/-- Decimal digits to a natural number. -/
def digitsToNat (l : List Char) : Nat :=
  l.foldl (fun acc c => acc * 10 + (c.toNat - 48)) 0

/-- Parsing modes of the recursive-descent JSON parser: a single value, the
elements of an array after `[`, or the fields of an object after `{`. -/
inductive PMode where
  | val
  | arrElems (acc : List Json)
  | objFields (acc : List (List Char × Json))

/-- Fuel-indexed recursive-descent JSON parser; returns the value and the
unconsumed remainder. -/
def parseJ : Nat → PMode → List Char → Option (Json × List Char)
  | 0, _, _ => none
  | Nat.succ fuel, PMode.val, input =>
    match skipWs input with
    | 'n' :: 'u' :: 'l' :: 'l' :: rest => some (Json.null, rest)
    | 't' :: 'r' :: 'u' :: 'e' :: rest => some (Json.bool true, rest)
    | 'f' :: 'a' :: 'l' :: 's' :: 'e' :: rest => some (Json.bool false, rest)
    | '\"' :: rest =>
      let body := rest.takeWhile (fun c => decide (c ≠ '\"'))
      if body.contains '\\' then none
      else
        match rest.dropWhile (fun c => decide (c ≠ '\"')) with
        | '\"' :: rest2 => some (Json.str body, rest2)
        | _ => none
    | '[' :: rest =>
      (match skipWs rest with
       | ']' :: rest2 => some (Json.arr [], rest2)
       | _ => parseJ fuel (PMode.arrElems []) rest)
    | '{' :: rest =>
      (match skipWs rest with
       | '}' :: rest2 => some (Json.obj [], rest2)
       | _ => parseJ fuel (PMode.objFields []) rest)
    | '-' :: rest =>
      let ds := rest.takeWhile Char.isDigit
      if ds = [] then none
      else some (Json.num (-(digitsToNat ds : Int)), rest.dropWhile Char.isDigit)
    | c :: rest =>
      if c.isDigit then
        let all := c :: rest
        some (Json.num (digitsToNat (all.takeWhile Char.isDigit) : Int),
              all.dropWhile Char.isDigit)
      else none
    | [] => none
  | Nat.succ fuel, PMode.arrElems acc, input =>
    match parseJ fuel PMode.val input with
    | none => none
    | some (v, rest) =>
      match skipWs rest with
      | ',' :: r => parseJ fuel (PMode.arrElems (acc ++ [v])) r
      | ']' :: r => some (Json.arr (acc ++ [v]), r)
      | _ => none
  | Nat.succ fuel, PMode.objFields acc, input =>
    match skipWs input with
    | '\"' :: rest =>
      let key := rest.takeWhile (fun c => decide (c ≠ '\"'))
      if key.contains '\\' then none
      else
        match rest.dropWhile (fun c => decide (c ≠ '\"')) with
        | '\"' :: rest2 =>
          (match skipWs rest2 with
           | ':' :: rest3 =>
             (match parseJ fuel PMode.val rest3 with
              | none => none
              | some (v, rest4) =>
                match skipWs rest4 with
                | ',' :: r => parseJ fuel (PMode.objFields (acc ++ [(key, v)])) r
                | '}' :: r => some (Json.obj (acc ++ [(key, v)]), r)
                | _ => none)
           | _ => none)
        | _ => none
    | _ => none

/-- Model of `JSON.parse`: parse a complete value, requiring only whitespace after
it; `none` models a thrown `SyntaxError`. -/
def jsonParse (s : List Char) : Option Json :=
  match parseJ (2 * s.length + 2) PMode.val s with
  | some (v, rest) => if skipWs rest = [] then some v else none
  | none => none

/-- Outcome of `loadFlashcards`: the value returned (or `none` for the JS
`null`) and whether the storage entry was removed. -/
structure LoadResult where
  loaded : Option Json
  removedEntry : Bool

/-- The source's `loadFlashcards`: `localStorage.getItem` gives `stored`
(`none` for an absent key); a falsy (absent or empty) string returns
`null`; otherwise the result of `JSON.parse(saved)` is returned as-is, and
when the parse throws, the entry is removed and `null` is returned. -/
def loadFlashcards (stored : Option (List Char)) : LoadResult :=
  match stored with
  | none => ⟨none, false⟩
  | some s =>
    if s = [] then ⟨none, false⟩
    else
      match jsonParse s with
      | some v => ⟨some v, false⟩
      | none => ⟨none, true⟩

/-- Field lookup in a parsed JSON object. -/
def lookupField (k : List Char) : List (List Char × Json) → Option Json
  | [] => none
  | (k2, v) :: rest => if k2 = k then some v else lookupField k rest

/-- Claim-side shape check: a JSON value is a `{term: string,
definition: string}` record. -/
def isFlashcardRecord (j : Json) : Bool :=
  match j with
  | Json.obj fs =>
    (match lookupField ['t', 'e', 'r', 'm'] fs with
     | some (Json.str _) => true
     | _ => false)
    &&
    (match lookupField ['d', 'e', 'f', 'i', 'n', 'i', 't', 'i', 'o', 'n'] fs with
     | some (Json.str _) => true
     | _ => false)
  | _ => false

/-- Claim-side shape check: a JSON value is a well-formed array of
flashcard records. -/
def isFlashcardArrayJson : Json → Bool
  | Json.arr es => es.all isFlashcardRecord
  | _ => false

/-! ### Application state and event handlers -/

/-- The module-level mutable state of the source, plus a log of the lists
passed to `saveFlashcards` (most recent first) standing in for
`localStorage` writes. -/
structure AppState where
  currentFlashcards : List Flashcard
  previousState : Option (List Flashcard)
  isMultiSelectMode : Bool
  selectedCards : Finset ℕ
  saveLog : List (List Flashcard)
deriving DecidableEq

/-- The source's `savePreviousState`: deep-copy the current list into the undo slot. -/
def savePreviousState (s : AppState) : AppState :=
  { s with previousState := some s.currentFlashcards }

/-- The source's `saveFlashcards`: persist a list (modelled as a write-log push). -/
def saveFlashcards (l : List Flashcard) (s : AppState) : AppState :=
  { s with saveLog := l :: s.saveLog }

/-- The source's `displayFlashcards`: re-render from a list; state-wise it assigns
`currentFlashcards = flashcards`. -/
def displayFlashcards (l : List Flashcard) (s : AppState) : AppState :=
  { s with currentFlashcards := l }

/-- Model of `Array.prototype.filter` with the element index exposed to the
callback, starting the index count at `n`. -/
def filterWithIndexAux (p : ℕ → Flashcard → Bool) : ℕ → List Flashcard → List Flashcard
  | _, [] => []
  | i, x :: xs =>
    if p i x then x :: filterWithIndexAux p (i + 1) xs
    else filterWithIndexAux p (i + 1) xs

/-- Model of `Array.prototype.filter((elem, index) => ...)`. -/
def filterWithIndex (p : ℕ → Flashcard → Bool) (l : List Flashcard) : List Flashcard :=
  filterWithIndexAux p 0 l

/-- The confirmed branch of a card's delete-button click listener:
snapshot, filter out index `i`, persist, re-render. -/
def deleteCardClick (i : ℕ) (s : AppState) : AppState :=
  let s1 := savePreviousState s
  let updated := filterWithIndex (fun j _ => decide (j ≠ i)) s1.currentFlashcards
  displayFlashcards updated (saveFlashcards updated s1)

/-- The `undoButton` click listener: if a snapshot exists, re-render from
it, persist it and clear the slot; otherwise nothing happens. -/
def undoClick (s : AppState) : AppState :=
  match s.previousState with
  | some p => { saveFlashcards p (displayFlashcards p s) with previousState := none }
  | none => s

/-- The `selectButton` click listener: flip multi-select mode; leaving the
mode clears the selection; then re-render (state-preserving here). -/
def selectClick (s : AppState) : AppState :=
  let s1 := { s with isMultiSelectMode := !s.isMultiSelectMode }
  if s1.isMultiSelectMode then s1 else { s1 with selectedCards := ∅ }

/-- The source's `toggleCardSelection`: add or remove an index from the selection. -/
def toggleCardSelection (i : ℕ) (s : AppState) : AppState :=
  if i ∈ s.selectedCards then { s with selectedCards := s.selectedCards.erase i }
  else { s with selectedCards := insert i s.selectedCards }

/-- The confirmed branch of the `deleteSelectedButton` click listener:
early return on empty selection; otherwise snapshot, filter out the
selected indices, leave multi-select mode, clear the selection, persist,
re-render. -/
def deleteSelectedClick (s : AppState) : AppState :=
  if s.selectedCards = ∅ then s
  else
    let s1 := savePreviousState s
    let updated :=
      filterWithIndex (fun i _ => decide (i ∉ s1.selectedCards)) s1.currentFlashcards
    let s2 := { s1 with isMultiSelectMode := false, selectedCards := ∅ }
    displayFlashcards updated (saveFlashcards updated s2)

/-- The source's `updateOrderAndSave`, run by every `dragend` listener: snapshot, read
the presentation order back from the DOM as the list of pre-drag indices
(`domOrder`; the DOM always supplies a permutation of `0..n-1`, modelled
by an in-range index lookup), re-render, re-filter, persist. -/
def updateOrderAndSave (domOrder : List ℕ) (s : AppState) : AppState :=
  let s1 := savePreviousState s
  let newFlashcards := domOrder.filterMap (fun i => s1.currentFlashcards[i]?)
  saveFlashcards newFlashcards (displayFlashcards newFlashcards s1)

/-- The source's `saveAndEndEditing` for card `i` with the edited raw texts: trim both;
if either differs from the stored card, snapshot, replace the card and
persist; otherwise only presentation state changes (none here). The
`index` is always in range in the UI; an out-of-range index leaves the
state unchanged. -/
def saveAndEndEditing (i : ℕ) (rawTerm rawDef : List Char) (s : AppState) : AppState :=
  let newTerm := jsTrim rawTerm
  let newDef := jsTrim rawDef
  match s.currentFlashcards[i]? with
  | none => s
  | some c =>
    if c.term ≠ newTerm ∨ c.definition ≠ newDef then
      let s1 := savePreviousState s
      let updated := s1.currentFlashcards.set i ⟨newTerm, newDef⟩
      saveFlashcards updated (displayFlashcards updated s1)
    else s

/-- The destructive operations (the ones eligible for undo). -/
inductive DestrOp where
  | edit (i : ℕ) (rawTerm rawDef : List Char)
  | deleteOne (i : ℕ)
  | deleteSel
  | reorder (domOrder : List ℕ)

/-- Run a destructive operation's handler. -/
def applyOp : DestrOp → AppState → AppState
  | DestrOp.edit i t d, s => saveAndEndEditing i t d s
  | DestrOp.deleteOne i, s => deleteCardClick i s
  | DestrOp.deleteSel, s => deleteSelectedClick s
  | DestrOp.reorder ord, s => updateOrderAndSave ord s

/-- The operation actually takes its destructive branch (reaches
`savePreviousState`) in the given state. -/
def opFires : DestrOp → AppState → Prop
  | DestrOp.edit i t d, s =>
      ∃ c, s.currentFlashcards[i]? = some c ∧
        (c.term ≠ jsTrim t ∨ c.definition ≠ jsTrim d)
  | DestrOp.deleteOne _, _ => True
  | DestrOp.deleteSel, s => s.selectedCards ≠ ∅
  | DestrOp.reorder _, _ => True

/-! ### Helper lemmas: split, join, trim -/

theorem jsSplit_ne_nil (sep : Char) (l : List Char) : jsSplit sep l ≠ [] := by
  cases l with
  | nil => simp [jsSplit]
  | cons c rest =>
    simp only [jsSplit]
    split
    · simp
    · split <;> simp

theorem jsJoin_jsSplit (sep : Char) (l : List Char) : jsJoin sep (jsSplit sep l) = l := by
  induction l with
  | nil => rfl
  | cons c rest ih =>
    rw [jsSplit]
    by_cases h : c = sep
    · rw [if_pos h]
      cases hs : jsSplit sep rest with
      | nil => exact absurd hs (jsSplit_ne_nil sep rest)
      | cons p ps =>
        rw [hs] at ih
        subst h
        simpa [jsJoin] using ih
    · rw [if_neg h]
      cases hs : jsSplit sep rest with
      | nil => exact absurd hs (jsSplit_ne_nil sep rest)
      | cons p ps =>
        rw [hs] at ih
        cases ps with
        | nil => simpa [jsJoin] using congrArg (c :: ·) ih
        | cons q qs =>
          rw [jsJoin] at ih ⊢
          rw [List.cons_append, ih]

theorem jsSplit_of_not_mem (sep : Char) (l : List Char) (h : sep ∉ l) :
    jsSplit sep l = [l] := by
  induction l with
  | nil => rfl
  | cons c rest ih =>
    have hc : ¬c = sep := fun hcc => h (hcc ▸ List.mem_cons_self c rest)
    have h' : sep ∉ rest := fun hmem => h (List.mem_cons_of_mem c hmem)
    rw [jsSplit, if_neg hc, ih h']

theorem jsSplit_append (sep : Char) (xs ys : List Char) (h : sep ∉ xs) :
    jsSplit sep (xs ++ sep :: ys) = xs :: jsSplit sep ys := by
  induction xs with
  | nil =>
    rw [List.nil_append, jsSplit, if_pos rfl]
  | cons x xs ih =>
    have hx : ¬x = sep := fun hxx => h (hxx ▸ List.mem_cons_self x xs)
    have h' : sep ∉ xs := fun hmem => h (List.mem_cons_of_mem x hmem)
    rw [List.cons_append, jsSplit, if_neg hx, ih h']

theorem jsSplit_jsJoin_lines (sep : Char) (ls : List (List Char)) (hne : ls ≠ [])
    (h : ∀ x ∈ ls, sep ∉ x) : jsSplit sep (jsJoin sep ls) = ls := by
  induction ls with
  | nil => exact absurd rfl hne
  | cons x ls ih =>
    cases ls with
    | nil => exact jsSplit_of_not_mem sep x (h x (List.mem_cons_self x []))
    | cons y ys =>
      rw [jsJoin, jsSplit_append sep x _ (h x (List.mem_cons_self x (y :: ys))),
        ih (by simp) (fun z hz => h z (List.mem_cons_of_mem x hz))]

theorem jsTrim_space_cons (d : List Char) : jsTrim (' ' :: d) = jsTrim d := by
  simp [jsTrim, List.dropWhile_cons, isWsChar]

/-! ### Helper lemmas: the response parser -/

theorem parseLine_append (a b : List Char) (h : ':' ∉ a) :
    parseLine (a ++ ':' :: b) =
      if jsTrim a ≠ [] ∧ jsTrim b ≠ [] then some ⟨jsTrim a, jsTrim b⟩ else none := by
  unfold parseLine
  rw [jsSplit_append ':' a b h]
  dsimp only
  rw [if_neg (jsSplit_ne_nil ':' b), jsJoin_jsSplit]
  by_cases ha : jsTrim a = []
  · rw [if_pos ha, if_neg (by simp [ha])]
  · rw [if_neg ha]
    by_cases hb : jsTrim b = []
    · rw [if_pos hb, if_neg (by simp [hb])]
    · rw [if_neg hb, if_pos ⟨ha, hb⟩]

theorem parseLine_of_no_colon (line : List Char) (h : ':' ∉ line) :
    parseLine line = none := by
  unfold parseLine
  rw [jsSplit_of_not_mem ':' line h]
  rfl

theorem parseLine_serializeCard (c : Flashcard)
    (ht1 : c.term ≠ []) (ht2 : jsTrim c.term = c.term) (ht3 : ':' ∉ c.term)
    (hd1 : c.definition ≠ []) (hd2 : jsTrim c.definition = c.definition) :
    parseLine (serializeCard c) = some c := by
  have hser : serializeCard c = c.term ++ ':' :: (' ' :: c.definition) := rfl
  rw [hser, parseLine_append _ _ ht3, jsTrim_space_cons, ht2, hd2, if_pos ⟨ht1, hd1⟩]

theorem first_colon_not_mem_take (l : List Char) :
    ':' ∉ l.takeWhile (fun c => decide (c ≠ ':')) := by
  intro hmem
  have := List.mem_takeWhile_imp hmem
  simp at this

theorem first_colon_decomp (l : List Char) (h : ':' ∈ l) :
    l = l.takeWhile (fun c => decide (c ≠ ':')) ++
        ':' :: (l.dropWhile (fun c => decide (c ≠ ':'))).tail := by
  induction l with
  | nil => cases h
  | cons c rest ih =>
    by_cases hc : c = ':'
    · subst hc
      simp [List.takeWhile_cons, List.dropWhile_cons]
    · have h' : ':' ∈ rest := by
        cases List.mem_cons.mp h with
        | inl heq => exact absurd heq.symm hc
        | inr hmem => exact hmem
      simp [List.takeWhile_cons, List.dropWhile_cons, hc]
      simpa using ih h'

theorem parseLine_eq_specParseLine (line : List Char) :
    parseLine line = specParseLine line := by
  by_cases h : ':' ∈ line
  · have hnot := first_colon_not_mem_take line
    have hdec := first_colon_decomp line h
    unfold specParseLine splitFirstColon
    rw [if_pos h]
    conv_lhs => rw [hdec]
    rw [parseLine_append _ _ hnot]
  · unfold specParseLine splitFirstColon
    rw [if_neg h]
    exact parseLine_of_no_colon line h

theorem newline_not_mem_serializeCard (c : Flashcard)
    (h1 : '\n' ∉ c.term) (h2 : '\n' ∉ c.definition) : '\n' ∉ serializeCard c := by
  unfold serializeCard
  intro hmem
  rcases List.mem_append.mp hmem with hl | hr
  · exact h1 hl
  · rcases List.mem_cons.mp hr with heq | hr2
    · exact absurd heq (by decide)
    · rcases List.mem_cons.mp hr2 with heq | hr3
      · exact absurd heq (by decide)
      · exact h2 hr3

theorem filterMap_parse_serialize (l : List Flashcard) (h : ∀ c ∈ l, validCard c) :
    (l.map serializeCard).filterMap parseLine = l := by
  induction l with
  | nil => rfl
  | cons c cs ih =>
    obtain ⟨t1, t2, t3, _, d1, d2, _, _⟩ := h c (List.mem_cons_self c cs)
    rw [List.map_cons, List.filterMap_cons,
      parseLine_serializeCard c t1 t2 t3 d1 d2,
      ih (fun d hd => h d (List.mem_cons_of_mem c hd))]

/-! ### Helper lemmas: indexed filtering, permutation lookup, undo -/

theorem filterWithIndexAux_eq (p : ℕ → Flashcard → Bool) (n : ℕ) (l : List Flashcard) :
    filterWithIndexAux p n l =
      ((l.enumFrom n).filter (fun q => p q.1 q.2)).map Prod.snd := by
  induction l generalizing n with
  | nil => rfl
  | cons x xs ih =>
    rw [filterWithIndexAux, List.enumFrom]
    by_cases h : p n x
    · simp [List.filter_cons, h, ih]
    · simp [List.filter_cons, h, ih]

theorem filterWithIndex_eq (p : ℕ → Flashcard → Bool) (l : List Flashcard) :
    filterWithIndex p l = ((l.enum.filter (fun q => p q.1 q.2)).map Prod.snd) := by
  rw [filterWithIndex, filterWithIndexAux_eq, List.enum]

theorem range_filterMap_getElem (l : List Flashcard) :
    (List.range l.length).filterMap (fun i => l[i]?) = l := by
  induction l with
  | nil => rfl
  | cons x xs ih =>
    rw [List.length_cons, List.range_succ_eq_map, List.filterMap_cons, List.filterMap_map]
    simp only [List.getElem?_cons_zero]
    have hcomp : ((fun i => (x :: xs)[i]?) ∘ Nat.succ) = fun i => xs[i]? := by
      funext i
      simp
    rw [hcomp, ih]

theorem undo_of_none (s : AppState) (h : s.previousState = none) : undoClick s = s := by
  unfold undoClick
  rw [h]

theorem undo_restores (s : AppState) (p : List Flashcard)
    (hp : s.previousState = some p) :
    (undoClick s).currentFlashcards = p ∧ (undoClick s).previousState = none ∧
    (undoClick s).saveLog = p :: s.saveLog := by
  unfold undoClick
  rw [hp]
  exact ⟨rfl, rfl, rfl⟩

theorem opFires_snapshot (op : DestrOp) (s : AppState) (h : opFires op s) :
    (applyOp op s).previousState = some s.currentFlashcards := by
  cases op with
  | edit i t d =>
    obtain ⟨c, hc, hcond⟩ := h
    simp only [applyOp, saveAndEndEditing, hc]
    rw [if_pos hcond]
    rfl
  | deleteOne i => rfl
  | deleteSel =>
    simp only [applyOp, deleteSelectedClick]
    rw [if_neg h]
    rfl
  | reorder ord => rfl

theorem isCardVisible_eq_all (q : List Char) (c : Flashcard) :
    isCardVisible q c = (searchWords q).all (fun w => containsSub (cardText c) w) := by
  unfold isCardVisible
  by_cases h : searchWords q = []
  · rw [if_pos h, h]
    rfl
  · rw [if_neg h]

/-! ### Claim theorems -/

/-- C1, counterexample: the claim says the selection set is empty after any
single delete and after any completed drag reorder; in the code neither
handler touches `selectedCards`, so from a state with selection `{0}` a
confirmed single delete of card 1 and a completed reorder both leave the
selection at `{0}`, not `∅`. -/
theorem selection_not_cleared_cex :
    (deleteCardClick 1
        (AppState.mk [⟨['a'], ['A']⟩, ⟨['b'], ['B']⟩] none true {0} [])).selectedCards =
      {0} ∧
    (deleteCardClick 1
        (AppState.mk [⟨['a'], ['A']⟩, ⟨['b'], ['B']⟩] none true {0} [])).selectedCards ≠
      ∅ ∧
    (updateOrderAndSave [1, 0]
        (AppState.mk [⟨['a'], ['A']⟩, ⟨['b'], ['B']⟩] none true {0} [])).selectedCards ≠
      ∅ := by
  decide

/-- C1, amended: the selection set is cleared when multi-select mode is
toggled off and when a (non-empty, confirmed) batch delete completes, which
also exits multi-select mode; a single delete and a drag reorder leave the
selection set unchanged (they neither clear nor remap it). -/
theorem selection_clearing_amended (s : AppState) :
    (s.isMultiSelectMode = true → (selectClick s).selectedCards = ∅) ∧
    (s.selectedCards ≠ ∅ → (deleteSelectedClick s).selectedCards = ∅ ∧
      (deleteSelectedClick s).isMultiSelectMode = false) ∧
    (∀ i, (deleteCardClick i s).selectedCards = s.selectedCards) ∧
    (∀ ord, (updateOrderAndSave ord s).selectedCards = s.selectedCards) := by
  refine ⟨?_, ?_, fun i => rfl, fun ord => rfl⟩
  · intro hm
    simp [selectClick, hm]
  · intro h
    unfold deleteSelectedClick
    rw [if_neg h]
    exact ⟨rfl, rfl⟩

/-- C1, witness for the amended claim at a concrete state. -/
theorem selection_clearing_amended_witness :
    (selectClick (AppState.mk [] none true {0} [])).selectedCards = ∅ ∧
    (deleteSelectedClick (AppState.mk [] none true {0} [])).selectedCards = ∅ := by
  have h := selection_clearing_amended (AppState.mk [] none true {0} [])
  exact ⟨h.1 rfl, (h.2.1 (by decide)).1⟩

/-- C2, counterexample: `"[1]"` is valid JSON but not an array of
`{term, definition}` records; the claim demands the load be discarded and
the entry removed, but `loadFlashcards` returns the parsed value unchanged
and removes nothing — there is no shape validation after `JSON.parse`. -/
theorem load_shape_validation_cex :
    jsonParse ['[', '1', ']'] = some (Json.arr [Json.num 1]) ∧
    isFlashcardArrayJson (Json.arr [Json.num 1]) = false ∧
    (loadFlashcards (some ['[', '1', ']'])).loaded = some (Json.arr [Json.num 1]) ∧
    (loadFlashcards (some ['[', '1', ']'])).removedEntry = false :=
  ⟨rfl, rfl, rfl, rfl⟩

/-- C2, amended: only a stored string on which `JSON.parse` throws is
treated as absence of data with the entry removed; an absent entry yields
no data without removal, and any string that parses as JSON — of whatever
shape — is returned as the loaded value with no validation and no removal. -/
theorem load_malformed_amended (s : List Char) (hne : s ≠ []) :
    (jsonParse s = none → loadFlashcards (some s) = ⟨none, true⟩) ∧
    (∀ v, jsonParse s = some v → loadFlashcards (some s) = ⟨some v, false⟩) ∧
    loadFlashcards none = ⟨none, false⟩ := by
  refine ⟨?_, ?_, rfl⟩
  · intro hp
    simp only [loadFlashcards]
    rw [if_neg hne, hp]
  · intro v hp
    simp only [loadFlashcards]
    rw [if_neg hne, hp]

/-- C2, witness for the amended claim: `"["` fails to parse, so the load
yields no data and the entry is removed. -/
theorem load_malformed_amended_witness :
    loadFlashcards (some ['[']) = ⟨none, true⟩ := by
  have h := load_malformed_amended ['['] (by decide)
  exact h.1 rfl

/-- C3, counterexample: the claim's visibility (whitespace-tokenised query,
tokens matched against the plain concatenation of term and definition)
disagrees with the code on both counts: query `"bc"` against card
`(ab, cd)` — `"bc"` is a substring of `"abcd"` but not of `"ab cd"` — and
query `"a<TAB>b"` against card `(xa, bx)` — the code splits only on the
space character, so the token keeps its tab and matches nothing. -/
theorem search_filter_cex :
    (claimVisible ['b', 'c'] ⟨['a', 'b'], ['c', 'd']⟩ = true ∧
     isCardVisible ['b', 'c'] ⟨['a', 'b'], ['c', 'd']⟩ = false) ∧
    (claimVisible ['a', '\t', 'b'] ⟨['x', 'a'], ['b', 'x']⟩ = true ∧
     isCardVisible ['a', '\t', 'b'] ⟨['x', 'a'], ['b', 'x']⟩ = false) := by
  decide

/-- C3, amended: after trimming and lower-casing the query and splitting it
on the SPACE character (other whitespace stays inside a token), a card is
visible iff every non-empty token is a substring of the card's term and
definition joined by a single space, lower-cased; a query with no tokens
leaves every card visible (the right-hand side is then vacuous). -/
theorem search_filter_amended (q : List Char) (c : Flashcard) :
    isCardVisible q c = true ↔
      ∀ w ∈ jsSplit ' ' (toLowerStr (jsTrim q)), w ≠ [] →
        containsSub (toLowerStr (c.term ++ ' ' :: c.definition)) w = true := by
  rw [isCardVisible_eq_all, List.all_eq_true]
  simp only [searchWords, cardText]
  constructor
  · intro h w hw hwne
    exact h w (List.mem_filter.mpr ⟨hw, by simpa using hwne⟩)
  · intro h w hw
    obtain ⟨hw1, hw2⟩ := List.mem_filter.mp hw
    exact h w hw1 (by simpa using hw2)

/-- C3, witness: the amended characterisation at a concrete query and card. -/
theorem search_filter_amended_witness :
    isCardVisible ['a', ' ', 'b'] ⟨['x', 'a'], ['b', 'x']⟩ = true ∧
    containsSub (toLowerStr (['x', 'a'] ++ ' ' :: ['b', 'x'])) ['a'] = true := by
  have h := (search_filter_amended ['a', ' ', 'b'] ⟨['x', 'a'], ['b', 'x']⟩).mpr (by decide)
  exact ⟨h, (search_filter_amended ['a', ' ', 'b'] ⟨['x', 'a'], ['b', 'x']⟩).mp h
    ['a'] (by decide) (by decide)⟩

/-- C4, counterexample: the pair `("a:b", "c")` satisfies every stated
precondition (non-empty, trimmed, no newlines, definition not ending in a
colon), yet serialising to `"a:b: c"` and parsing back yields the single
card `("a", "b: c")`, not the original list — the claim is missing a
no-colons-in-terms precondition. -/
theorem parser_round_trip_cex :
    (['a', ':', 'b'] : List Char) ≠ [] ∧ jsTrim ['a', ':', 'b'] = ['a', ':', 'b'] ∧
    '\n' ∉ (['a', ':', 'b'] : List Char) ∧
    (['c'] : List Char) ≠ [] ∧ jsTrim ['c'] = ['c'] ∧ '\n' ∉ (['c'] : List Char) ∧
    (['c'] : List Char).getLast? ≠ some ':' ∧
    parseFlashcards (serializeCards [⟨['a', ':', 'b'], ['c']⟩]) =
      [⟨['a'], ['b', ':', ' ', 'c']⟩] ∧
    parseFlashcards (serializeCards [⟨['a', ':', 'b'], ['c']⟩]) ≠
      [⟨['a', ':', 'b'], ['c']⟩] := by
  decide

/-- C4, amended: for every list of valid pairs — non-empty, trimmed, free
of newlines, the TERM also free of colons, and the definition not ending in
a trailing colon — serialising each pair to a `"term: definition"` line,
joining with newlines and parsing back yields the original list. -/
theorem parser_round_trip (l : List Flashcard) (h : ∀ c ∈ l, validCard c) :
    parseFlashcards (serializeCards l) = l := by
  cases l with
  | nil => rfl
  | cons c cs =>
    unfold parseFlashcards serializeCards
    rw [jsSplit_jsJoin_lines '\n' ((c :: cs).map serializeCard) (by simp)
      (by
        intro x hx
        obtain ⟨d, hd, hdx⟩ := List.mem_map.mp hx
        obtain ⟨_, _, _, t4, _, _, d3, _⟩ := h d hd
        exact hdx ▸ newline_not_mem_serializeCard d t4 d3)]
    exact filterMap_parse_serialize _ h

/-- C4, witness: the amended round trip at a concrete two-card list. -/
theorem parser_round_trip_witness :
    parseFlashcards (serializeCards
        [⟨['h', 'i'], ['y', 'o']⟩, ⟨['b', 'y', 'e'], ['g', 'o']⟩]) =
      [⟨['h', 'i'], ['y', 'o']⟩, ⟨['b', 'y', 'e'], ['g', 'o']⟩] :=
  parser_round_trip _ (by decide)

/-- C5: the response parser is exactly line-by-line first-colon splitting —
the parsed output equals the line list filtered through the spec-side
description (split on the first colon; a line yields a card iff the head
and the rejoined remainder trim non-empty; other lines yield nothing), so
order is preserved, invalid lines are dropped silently and the result may
be empty. -/
theorem parser_line_behaviour (text : List Char) :
    parseFlashcards text = (jsSplit '\n' text).filterMap specParseLine := by
  unfold parseFlashcards
  rw [show parseLine = specParseLine from funext parseLine_eq_specParseLine]

/-- C6: undo is single-slot — any destructive operation that fires
overwrites the snapshot with the state immediately before itself, so after
two consecutive destructive operations a single undo restores the list
from immediately before the second operation. -/
theorem undo_single_slot (s : AppState) (op1 op2 : DestrOp)
    (h : opFires op2 (applyOp op1 s)) :
    (applyOp op2 (applyOp op1 s)).previousState =
      some (applyOp op1 s).currentFlashcards ∧
    (undoClick (applyOp op2 (applyOp op1 s))).currentFlashcards =
      (applyOp op1 s).currentFlashcards := by
  have h1 := opFires_snapshot op2 _ h
  exact ⟨h1, (undo_restores _ _ h1).1⟩

/-- C6, witness: two consecutive single deletes on a two-card list; undo
returns the one-card list from before the second delete, not the original. -/
theorem undo_single_slot_witness :
    (undoClick (applyOp (DestrOp.deleteOne 0) (applyOp (DestrOp.deleteOne 0)
        (AppState.mk [⟨['a'], ['A']⟩, ⟨['b'], ['B']⟩] none false ∅
          [])))).currentFlashcards =
      [⟨['b'], ['B']⟩] := by
  have h := undo_single_slot
    (AppState.mk [⟨['a'], ['A']⟩, ⟨['b'], ['B']⟩] none false ∅ [])
    (DestrOp.deleteOne 0) (DestrOp.deleteOne 0) trivial
  exact h.2.trans (by decide)

/-- C7: undo is one-shot and fails silently — with no snapshot the click is
a no-op; with a snapshot it restores the list, persists it and clears the
slot; and a second consecutive undo is always a no-op. -/
theorem undo_one_shot (s : AppState) :
    (s.previousState = none → undoClick s = s) ∧
    (∀ p, s.previousState = some p →
      (undoClick s).currentFlashcards = p ∧ (undoClick s).saveLog = p :: s.saveLog ∧
      (undoClick s).previousState = none) ∧
    undoClick (undoClick s) = undoClick s := by
  refine ⟨undo_of_none s, ?_, ?_⟩
  · intro p hp
    obtain ⟨h1, h2, h3⟩ := undo_restores s p hp
    exact ⟨h1, h3, h2⟩
  · cases hp : s.previousState with
    | none =>
      rw [undo_of_none s hp]
      exact undo_of_none s hp
    | some p => exact undo_of_none _ (undo_restores s p hp).2.1

/-- C7, witness at a concrete state with a snapshot present. -/
theorem undo_one_shot_witness :
    (undoClick (AppState.mk [] (some [⟨['a'], ['A']⟩]) false ∅ [])).currentFlashcards =
      [⟨['a'], ['A']⟩] ∧
    undoClick (undoClick (AppState.mk [] (some [⟨['a'], ['A']⟩]) false ∅ [])) =
      undoClick (AppState.mk [] (some [⟨['a'], ['A']⟩]) false ∅ []) := by
  have h := undo_one_shot (AppState.mk [] (some [⟨['a'], ['A']⟩]) false ∅ [])
  exact ⟨(h.2.1 _ rfl).1, h.2.2⟩

/-- C8: a confirmed batch delete with a non-empty selection produces the
original list with exactly the cards at selected indices removed (an
index-aware filter, so the relative order of survivors is preserved), and
leaves multi-select mode off with an empty selection. -/
theorem batch_delete_exact (s : AppState) (h : s.selectedCards ≠ ∅) :
    (deleteSelectedClick s).currentFlashcards =
      (s.currentFlashcards.enum.filter
        (fun q => decide (q.1 ∉ s.selectedCards))).map Prod.snd ∧
    (deleteSelectedClick s).isMultiSelectMode = false ∧
    (deleteSelectedClick s).selectedCards = ∅ := by
  unfold deleteSelectedClick
  rw [if_neg h]
  refine ⟨?_, rfl, rfl⟩
  show filterWithIndex (fun i _ => decide (i ∉ s.selectedCards)) s.currentFlashcards = _
  rw [filterWithIndex_eq]

/-- C8, witness: the spec's own example — selecting `{1, 3}` from a 4-card
list leaves cards 0 and 2 in order, with the selection cleared. -/
theorem batch_delete_exact_witness :
    (deleteSelectedClick (AppState.mk
        [⟨['a'], ['A']⟩, ⟨['b'], ['B']⟩, ⟨['c'], ['C']⟩, ⟨['d'], ['D']⟩]
        none true {1, 3} [])).currentFlashcards =
      [⟨['a'], ['A']⟩, ⟨['c'], ['C']⟩] ∧
    (deleteSelectedClick (AppState.mk
        [⟨['a'], ['A']⟩, ⟨['b'], ['B']⟩, ⟨['c'], ['C']⟩, ⟨['d'], ['D']⟩]
        none true {1, 3} [])).selectedCards = ∅ := by
  have h := batch_delete_exact (AppState.mk
      [⟨['a'], ['A']⟩, ⟨['b'], ['B']⟩, ⟨['c'], ['C']⟩, ⟨['d'], ['D']⟩]
      none true {1, 3} []) (by decide)
  exact ⟨h.1.trans (by decide), h.2.2⟩

/-- C9: the edit no-op guard — when the trimmed term and definition both
equal the stored card's fields, saving the edit changes nothing: no undo
snapshot is taken, no persistence write happens, the list is untouched
(the state is returned exactly as it was). -/
theorem edit_noop_guard (s : AppState) (i : ℕ) (rawTerm rawDef : List Char)
    (c : Flashcard) (hc : s.currentFlashcards[i]? = some c)
    (ht : jsTrim rawTerm = c.term) (hd : jsTrim rawDef = c.definition) :
    saveAndEndEditing i rawTerm rawDef s = s := by
  unfold saveAndEndEditing
  simp only [hc, ht, hd]
  rw [if_neg (by simp)]

/-- C9, witness: an edit whose raw texts trim back to the stored card. -/
theorem edit_noop_guard_witness :
    saveAndEndEditing 0 ['a'] [' ', 'A']
        (AppState.mk [⟨['a'], ['A']⟩] none false ∅ []) =
      AppState.mk [⟨['a'], ['A']⟩] none false ∅ [] :=
  edit_noop_guard _ 0 ['a'] [' ', 'A'] ⟨['a'], ['A']⟩ (by decide) (by decide) (by decide)

/-- C10: every completed drag (`dragend` runs `updateOrderAndSave`)
unconditionally overwrites the undo snapshot with the pre-drag list and
performs a persistence write of the resulting list — even for a no-move
drag: with the identity DOM order the list is unchanged, yet the snapshot
and the write still happen (there is no changed-order guard). -/
theorem reorder_always_commits (s : AppState) (domOrder : List ℕ) :
    (updateOrderAndSave domOrder s).previousState = some s.currentFlashcards ∧
    (updateOrderAndSave domOrder s).saveLog =
      (updateOrderAndSave domOrder s).currentFlashcards :: s.saveLog ∧
    (updateOrderAndSave (List.range s.currentFlashcards.length) s).currentFlashcards =
      s.currentFlashcards := by
  refine ⟨rfl, rfl, ?_⟩
  show (List.range s.currentFlashcards.length).filterMap
      (fun i => s.currentFlashcards[i]?) = _
  exact range_filterMap_getElem s.currentFlashcards

end Flashcards
